import Mathlib

/-!
Shallow embedding of the heartbeat-monitor repository (TypeScript sources
`src/types.ts`, `src/validator.ts`, `src/analyzer.ts`, `src/main.ts`).

Timestamps are modelled as `Int` values counting milliseconds since the Unix
epoch, matching `Date.prototype.getTime`.  Configuration numbers are modelled
as `Int`.  The host provided string-to-date parsing (`new Date(string)`)
is not part of the repository; it is modelled as an explicit parameter
`pd : String → Option Int` (returning `none` where the host would produce an
invalid date, i.e. `isNaN(date.getTime())`).
-/

namespace HeartbeatMonitor

/-- Model of a JavaScript runtime value, as far as the validator inspects it:
`typeof`, `in`-presence of fields, field access, string payloads. -/
inductive JSVal where
  | vundefined : JSVal
  | vnull : JSVal
  | vbool : Bool → JSVal
  | vnum : Int → JSVal
  | vstr : String → JSVal
  | vobj : List (String × JSVal) → JSVal

/-- `ParsedHeartbeat` from `src/types.ts`: a validated record with a trimmed
service name and the timestamp in epoch milliseconds (`Date` is represented by
its `getTime()` value). -/
structure ParsedHeartbeat where
  service : String
  timestamp : Int
deriving DecidableEq, Repr

/-- `Config` from `src/types.ts`. -/
structure Config where
  expected_interval_seconds : Int
  allowed_misses : Int
deriving DecidableEq, Repr

/-- `Alert` from `src/types.ts`: the emitted alert, `alert_at` being the ISO
rendering of the alert instant. -/
structure Alert where
  service : String
  alert_at : String
deriving DecidableEq, Repr

/-- `ValidationResult` from `src/types.ts`. -/
structure ValidationResult where
  valid : List ParsedHeartbeat
  invalid : Nat
deriving DecidableEq, Repr

/-! ### ISO-8601 rendering (model of `Date.prototype.toISOString`) -/

/-- Left-pad the decimal rendering of `n` with zeros up to `width`. -/
def zeroPad (width : Nat) (n : Nat) : String :=
  let s := toString n
  if s.length < width then String.mk (List.replicate (width - s.length) '0') ++ s
  else s

/-- Convert a day count relative to 1970-01-01 to a proleptic Gregorian civil
date `(year, month, day)`; the standard era-based conversion used to model the
ECMAScript date algorithms. -/
def civilFromDays (z0 : Int) : Int × Nat × Nat :=
  let z := z0 + 719468
  let era : Int := z.ediv 146097
  let doe : Nat := (z.emod 146097).toNat
  let yoe : Nat := (doe - doe / 1460 + doe / 36524 - doe / 146096) / 365
  let y : Int := (yoe : Int) + era * 400
  let doy : Nat := doe - (365 * yoe + yoe / 4 - yoe / 100)
  let mp : Nat := (5 * doy + 2) / 153
  let d : Nat := doy - (153 * mp + 2) / 5 + 1
  let m : Nat := if mp < 10 then mp + 3 else mp - 9
  (if m ≤ 2 then y + 1 else y, m, d)

/-- Model of `Date.prototype.toISOString` on an epoch-millisecond value:
`YYYY-MM-DDTHH:mm:ss.sssZ`, with the expanded six-digit signed year outside
the range 0..9999. -/
def toISOString (t : Int) : String :=
  let day : Int := t.ediv 86400000
  let msInDay : Nat := (t.emod 86400000).toNat
  let c := civilFromDays day
  let y := c.1
  let hour := msInDay / 3600000
  let minute := (msInDay / 60000) % 60
  let second := (msInDay / 1000) % 60
  let milli := msInDay % 1000
  let yearStr :=
    if 0 ≤ y ∧ y ≤ 9999 then zeroPad 4 y.toNat
    else if y < 0 then "-" ++ zeroPad 6 (-y).toNat
    else "+" ++ zeroPad 6 y.toNat
  yearStr ++ "-" ++ zeroPad 2 c.2.1 ++ "-" ++ zeroPad 2 c.2.2 ++ "T" ++
    zeroPad 2 hour ++ ":" ++ zeroPad 2 minute ++ ":" ++ zeroPad 2 second ++
    "." ++ zeroPad 3 milli ++ "Z"

/-! ### Analyzer (`src/analyzer.ts`) -/

/-- The sort comparator from `analyseServiceHeartbeats`:
`(a, b) => a.timestamp.getTime() - b.timestamp.getTime()`, i.e. ascending
timestamps. -/
def hbLE (a b : ParsedHeartbeat) : Bool := a.timestamp ≤ b.timestamp

/-- The scan loop of `analyseServiceHeartbeats` (`for` loop over index `i`,
comparing `sorted[i]` with `sorted[i+1]`): on the first pair whose gap reaches
`thresholdMs`, build the alert at `current + expected_interval_seconds`;
otherwise continue. -/
def scanForGap (intervalSeconds : Int) (thresholdMs : Int) :
    List ParsedHeartbeat → Option Alert
  | current :: next :: rest =>
    if next.timestamp - current.timestamp ≥ thresholdMs then
      some ⟨current.service, toISOString (current.timestamp + intervalSeconds * 1000)⟩
    else
      scanForGap intervalSeconds thresholdMs (next :: rest)
  | _ => none

/-- `analyseServiceHeartbeats` from `src/analyzer.ts`. -/
def analyseServiceHeartbeats (heartbeats : List ParsedHeartbeat) (config : Config) :
    Option Alert :=
  if heartbeats.length < 2 then
    none
  else
    let sorted := heartbeats.mergeSort hbLE
    let thresholdMs := config.expected_interval_seconds * (config.allowed_misses + 1) * 1000
    scanForGap config.expected_interval_seconds thresholdMs sorted

/-- One step of the grouping loop in `groupHeartbeatsByService`: append the
heartbeat to the entry of its service key, or add a fresh entry at the end
(JavaScript `Map` preserves first-insertion key order). -/
def insertGrouped (grouped : List (String × List ParsedHeartbeat))
    (heartbeat : ParsedHeartbeat) : List (String × List ParsedHeartbeat) :=
  match grouped with
  | [] => [(heartbeat.service, [heartbeat])]
  | (s, hbs) :: rest =>
    if s = heartbeat.service then (s, hbs ++ [heartbeat]) :: rest
    else (s, hbs) :: insertGrouped rest heartbeat

/-- `groupHeartbeatsByService` from `src/analyzer.ts`, the `Map` represented
as an association list in key-insertion order. -/
def groupHeartbeatsByService (heartbeats : List ParsedHeartbeat) :
    List (String × List ParsedHeartbeat) :=
  heartbeats.foldl insertGrouped []

/-- `analyseAllHeartbeats` from `src/analyzer.ts`: run the per-service
analysis over every group and keep the non-null results. -/
def analyseAllHeartbeats (heartbeats : List ParsedHeartbeat) (config : Config) :
    List Alert :=
  (groupHeartbeatsByService heartbeats).filterMap
    (fun g => analyseServiceHeartbeats g.2 config)

/-! ### Validator (`src/validator.ts`) -/

/-- Field presence and access on a `JSVal`: `some v` when the value is an
object carrying the key. -/
def fieldOf (event : JSVal) (key : String) : Option JSVal :=
  match event with
  | JSVal.vobj fields => fields.lookup key
  | _ => none

/-- Field access `event.key`, yielding `undefined` when absent (only used
after a presence check, so the default never matters). -/
def getField (event : JSVal) (key : String) : JSVal :=
  (fieldOf event key).getD JSVal.vundefined

/-- `hasRequiredFields` from `src/validator.ts`: the value is a non-null
object and both `service` and `timestamp` are present (`in`). -/
def hasRequiredFields (event : JSVal) : Bool :=
  match event with
  | JSVal.vobj fields =>
    (fields.lookup "service").isSome && (fields.lookup "timestamp").isSome
  | _ => false

/-- `isValidService` from `src/validator.ts`: a string whose trimmed form is
non-empty. -/
def isValidService (service : JSVal) : Bool :=
  match service with
  | JSVal.vstr s => 0 < s.trim.length
  | _ => false

/-- `parseTimestamp` from `src/validator.ts`, with the host date parser
abstracted as `pd`: non-strings are rejected, strings are parsed by `pd`
(`none` models `isNaN(date.getTime())`). -/
def parseTimestamp (pd : String → Option Int) (timestamp : JSVal) : Option Int :=
  match timestamp with
  | JSVal.vstr s => pd s
  | _ => none

/-- `parseEvent` from `src/validator.ts`: shape check, service check,
timestamp parse, then build the record with the trimmed service.  The final
match extracts the service string (the source narrows its type via the
`isValidService` guard, so the fallback arm is unreachable). -/
def parseEvent (pd : String → Option Int) (event : JSVal) : Option ParsedHeartbeat :=
  if hasRequiredFields event then
    if isValidService (getField event "service") then
      match getField event "service", parseTimestamp pd (getField event "timestamp") with
      | JSVal.vstr s, some t => some ⟨s.trim, t⟩
      | _, _ => none
    else none
  else none

/-- `validateAndParseEvents` from `src/validator.ts`: collect parsed records
in input order, count rejected events. -/
def validateAndParseEvents (pd : String → Option Int) : List JSVal → ValidationResult
  | [] => ⟨[], 0⟩
  | event :: rest =>
    let r := validateAndParseEvents pd rest
    match parseEvent pd event with
    | some parsed => ⟨parsed :: r.valid, r.invalid⟩
    | none => ⟨r.valid, r.invalid + 1⟩

/-- `detectMissedHeartbeats` from `src/main.ts`: validate, then analyse the
valid records. -/
def detectMissedHeartbeats (pd : String → Option Int) (events : List JSVal)
    (config : Config) : List Alert :=
  analyseAllHeartbeats (validateAndParseEvents pd events).valid config

/-! ### Specification-side notions used to state the claims -/

/-- The chronologically consecutive pairs of a list (spec notion used to state
the gap properties). -/
def consecutivePairs : List ParsedHeartbeat → List (ParsedHeartbeat × ParsedHeartbeat)
  | a :: b :: rest => (a, b) :: consecutivePairs (b :: rest)
  | _ => []

/-- The first consecutive pair whose gap reaches the threshold (spec notion:
the first qualifying gap of the sorted timeline). -/
def firstQualifyingPair (thresholdMs : Int) :
    List ParsedHeartbeat → Option (ParsedHeartbeat × ParsedHeartbeat)
  | a :: b :: rest =>
    if b.timestamp - a.timestamp ≥ thresholdMs then some (a, b)
    else firstQualifyingPair thresholdMs (b :: rest)
  | _ => none

/-- Spec-side characterization of a rejected raw event, following the claim
wording: the event lacks the `service` or the `timestamp` field, or its
service is not text or trims to empty, or its timestamp is not text or not a
parseable instant. -/
def invalidEventSpec (pd : String → Option Int) (e : JSVal) : Prop :=
  fieldOf e "service" = none ∨ fieldOf e "timestamp" = none ∨
  (∀ s, getField e "service" ≠ JSVal.vstr s) ∨
  (∃ s, getField e "service" = JSVal.vstr s ∧ s.trim = "") ∨
  (∀ s, getField e "timestamp" ≠ JSVal.vstr s) ∨
  (∃ s, getField e "timestamp" = JSVal.vstr s ∧ pd s = none)

example : toISOString 0 = "1970-01-01T00:00:00.000Z" := by decide

example : toISOString 60000 = "1970-01-01T00:01:00.000Z" := by decide

example : toISOString 951782400123 = "2000-02-29T00:00:00.123Z" := by decide

example : toISOString (-1) = "1969-12-31T23:59:59.999Z" := by decide

/-! ### Lemmas about the per-service scan -/

theorem scanForGap_eq_firstQualifyingPair (e thr : Int) :
    ∀ l : List ParsedHeartbeat,
      scanForGap e thr l = (firstQualifyingPair thr l).map
        (fun p => ⟨p.1.service, toISOString (p.1.timestamp + e * 1000)⟩)
  | [] => rfl
  | [_] => rfl
  | a :: b :: rest => by
    simp only [scanForGap, firstQualifyingPair]
    split
    · rfl
    · exact scanForGap_eq_firstQualifyingPair e thr (b :: rest)

theorem firstQualifyingPair_isSome_iff (thr : Int) :
    ∀ l : List ParsedHeartbeat,
      (firstQualifyingPair thr l).isSome = true ↔
        ∃ p ∈ consecutivePairs l, p.2.timestamp - p.1.timestamp ≥ thr
  | [] => by simp [firstQualifyingPair, consecutivePairs]
  | [a] => by simp [firstQualifyingPair, consecutivePairs]
  | a :: b :: rest => by
    simp only [firstQualifyingPair, consecutivePairs]
    split
    · rename_i h
      constructor
      · intro _
        exact ⟨(a, b), List.mem_cons_self _ _, h⟩
      · intro _
        rfl
    · rename_i h
      rw [firstQualifyingPair_isSome_iff thr (b :: rest)]
      constructor
      · rintro ⟨p, hp, hq⟩
        exact ⟨p, List.mem_cons_of_mem _ hp, hq⟩
      · rintro ⟨p, hp, hq⟩
        rcases List.mem_cons.mp hp with h1 | h1
        · subst h1
          exact absurd hq h
        · exact ⟨p, h1, hq⟩

theorem firstQualifyingPair_some (thr : Int) :
    ∀ l : List ParsedHeartbeat, ∀ p,
      firstQualifyingPair thr l = some p →
        p ∈ consecutivePairs l ∧ p.2.timestamp - p.1.timestamp ≥ thr
  | [], p, h => by simp [firstQualifyingPair] at h
  | [a], p, h => by simp [firstQualifyingPair] at h
  | a :: b :: rest, p, h => by
    simp only [firstQualifyingPair] at h
    simp only [consecutivePairs]
    split at h
    · rename_i hg
      cases h
      exact ⟨List.mem_cons_self _ _, hg⟩
    · have := firstQualifyingPair_some thr (b :: rest) p h
      exact ⟨List.mem_cons_of_mem _ this.1, this.2⟩

theorem consecutivePairs_mem (p : ParsedHeartbeat × ParsedHeartbeat) :
    ∀ l, p ∈ consecutivePairs l → p.1 ∈ l ∧ p.2 ∈ l
  | [], h => by simp [consecutivePairs] at h
  | [a], h => by simp [consecutivePairs] at h
  | a :: b :: rest, h => by
    simp only [consecutivePairs, List.mem_cons] at h
    rcases h with h | h
    · subst h
      exact ⟨List.mem_cons_self _ _, List.mem_cons_of_mem _ (List.mem_cons_self _ _)⟩
    · have := consecutivePairs_mem p (b :: rest) h
      exact ⟨List.mem_cons_of_mem _ this.1, List.mem_cons_of_mem _ this.2⟩

theorem firstQualifyingPair_of_short (thr : Int) (l : List ParsedHeartbeat)
    (h : l.length < 2) : firstQualifyingPair thr l = none := by
  match l with
  | [] => rfl
  | [a] => rfl
  | a :: b :: r =>
    exfalso
    simp only [List.length_cons] at h
    omega

/-- Master characterization: `analyseServiceHeartbeats` is the alert built
from the first qualifying pair of the timestamp-sorted list (and `none` when
no pair qualifies, in particular for lists shorter than two). -/
theorem analyseServiceHeartbeats_eq_first (hb : List ParsedHeartbeat) (cfg : Config) :
    analyseServiceHeartbeats hb cfg =
      (firstQualifyingPair
          (cfg.expected_interval_seconds * (cfg.allowed_misses + 1) * 1000)
          (hb.mergeSort hbLE)).map
        (fun p => ⟨p.1.service,
          toISOString (p.1.timestamp + cfg.expected_interval_seconds * 1000)⟩) := by
  unfold analyseServiceHeartbeats
  split
  · rename_i h
    rw [firstQualifyingPair_of_short _ _ (by simpa using h)]
    rfl
  · exact scanForGap_eq_firstQualifyingPair _ _ _

/-- Any emitted alert is grounded in a member of the analysed group: its
service is the service of some record and its instant is that record plus one
expected interval, ISO-rendered. -/
theorem analyse_some_grounded (hb : List ParsedHeartbeat) (cfg : Config) (a : Alert)
    (h : analyseServiceHeartbeats hb cfg = some a) :
    ∃ r ∈ hb, a.service = r.service ∧
      a.alert_at = toISOString (r.timestamp + cfg.expected_interval_seconds * 1000) := by
  rw [analyseServiceHeartbeats_eq_first] at h
  rcases Option.map_eq_some'.mp h with ⟨p, hp, hmk⟩
  have hmem := (consecutivePairs_mem p _ (firstQualifyingPair_some _ _ p hp).1).1
  refine ⟨p.1, List.mem_mergeSort.mp hmem, ?_, ?_⟩
  · rw [← hmk]
  · rw [← hmk]

/-! ### Claims C1 and C4 -/

/-- C1: for a single-service record list with at least two entries, under a
positive expected interval and a non-negative allowed-miss count, the
per-service detection emits an alert exactly when some chronologically
consecutive pair of the timestamp-sorted records has a gap of at least
`expected_interval_seconds * (allowed_misses + 1)` seconds, i.e. at least the
threshold in milliseconds; a gap equal to the threshold qualifies and any
smaller gap does not. -/
theorem claim_C1 (hb : List ParsedHeartbeat) (cfg : Config) (c : String)
    (hsvc : ∀ r ∈ hb, r.service = c) (hlen : 2 ≤ hb.length)
    (hint : 0 < cfg.expected_interval_seconds) (hmiss : 0 ≤ cfg.allowed_misses) :
    (analyseServiceHeartbeats hb cfg).isSome = true ↔
      ∃ p ∈ consecutivePairs (hb.mergeSort hbLE),
        p.2.timestamp - p.1.timestamp ≥
          cfg.expected_interval_seconds * (cfg.allowed_misses + 1) * 1000 := by
  rw [analyseServiceHeartbeats_eq_first, Option.isSome_map']
  exact firstQualifyingPair_isSome_iff _ _

unseal List.merge List.mergeSort in
theorem claim_C1_witness :
    (analyseServiceHeartbeats [⟨"email", 0⟩, ⟨"email", 240000⟩] ⟨60, 3⟩).isSome = true ↔
      ∃ p ∈ consecutivePairs ([⟨"email", 0⟩, ⟨"email", 240000⟩].mergeSort hbLE),
        p.2.timestamp - p.1.timestamp ≥ (60 : Int) * (3 + 1) * 1000 :=
  claim_C1 [⟨"email", 0⟩, ⟨"email", 240000⟩] ⟨60, 3⟩ "email"
    (by decide) (by decide) (by decide) (by decide)

/-- C2: whenever the per-service detection emits an alert, the alert instant
equals the timestamp of the earlier record of the first qualifying pair plus
exactly one expected interval (ISO-rendered), however large the actual gap,
and the alert service equals the service of that record. -/
theorem claim_C2 (hb : List ParsedHeartbeat) (cfg : Config) (a : Alert)
    (h : analyseServiceHeartbeats hb cfg = some a) :
    ∃ p, firstQualifyingPair
        (cfg.expected_interval_seconds * (cfg.allowed_misses + 1) * 1000)
        (hb.mergeSort hbLE) = some p ∧
      a.service = p.1.service ∧
      a.alert_at = toISOString (p.1.timestamp + cfg.expected_interval_seconds * 1000) := by
  rw [analyseServiceHeartbeats_eq_first] at h
  rcases Option.map_eq_some'.mp h with ⟨p, hp, hmk⟩
  exact ⟨p, hp, by rw [← hmk], by rw [← hmk]⟩

unseal List.merge List.mergeSort in
theorem claim_C2_witness :
    ∃ p, firstQualifyingPair ((60 : Int) * (3 + 1) * 1000)
        ([⟨"email", 0⟩, ⟨"email", 600000⟩].mergeSort hbLE) = some p ∧
      (⟨"email", toISOString 60000⟩ : Alert).service = p.1.service ∧
      (⟨"email", toISOString 60000⟩ : Alert).alert_at =
        toISOString (p.1.timestamp + (60 : Int) * 1000) :=
  claim_C2 [⟨"email", 0⟩, ⟨"email", 600000⟩] ⟨60, 3⟩ ⟨"email", toISOString 60000⟩ (by decide)

/-- C3: on a single-service record list whose sorted timeline has two or more
qualifying gaps, the detection returns exactly the alert of the first
chronological qualifying gap; the scan stops there, so the later qualifying
gaps contribute no alert to the run. -/
theorem claim_C3 (hb : List ParsedHeartbeat) (cfg : Config) (c : String)
    (hsvc : ∀ r ∈ hb, r.service = c)
    (htwo : 2 ≤ (consecutivePairs (hb.mergeSort hbLE)).countP
        (fun p => p.2.timestamp - p.1.timestamp ≥
          cfg.expected_interval_seconds * (cfg.allowed_misses + 1) * 1000)) :
    ∃ p, firstQualifyingPair
        (cfg.expected_interval_seconds * (cfg.allowed_misses + 1) * 1000)
        (hb.mergeSort hbLE) = some p ∧
      analyseServiceHeartbeats hb cfg =
        some ⟨p.1.service,
          toISOString (p.1.timestamp + cfg.expected_interval_seconds * 1000)⟩ := by
  have hpos : 0 < (consecutivePairs (hb.mergeSort hbLE)).countP
      (fun p => p.2.timestamp - p.1.timestamp ≥
        cfg.expected_interval_seconds * (cfg.allowed_misses + 1) * 1000) := by omega
  rcases List.countP_pos_iff.mp hpos with ⟨p, hmem, hpred⟩
  have hex : ∃ q ∈ consecutivePairs (hb.mergeSort hbLE),
      q.2.timestamp - q.1.timestamp ≥
        cfg.expected_interval_seconds * (cfg.allowed_misses + 1) * 1000 :=
    ⟨p, hmem, of_decide_eq_true hpred⟩
  have hs := (firstQualifyingPair_isSome_iff _ _).mpr hex
  rcases Option.isSome_iff_exists.mp hs with ⟨q, hq⟩
  refine ⟨q, hq, ?_⟩
  rw [analyseServiceHeartbeats_eq_first, hq]
  rfl

unseal List.merge List.mergeSort in
theorem claim_C3_witness :
    ∃ p, firstQualifyingPair ((60 : Int) * (3 + 1) * 1000)
        ([⟨"email", 0⟩, ⟨"email", 240000⟩, ⟨"email", 480000⟩].mergeSort hbLE) = some p ∧
      analyseServiceHeartbeats
          [⟨"email", 0⟩, ⟨"email", 240000⟩, ⟨"email", 480000⟩] ⟨60, 3⟩ =
        some ⟨p.1.service, toISOString (p.1.timestamp + (60 : Int) * 1000)⟩ :=
  claim_C3 [⟨"email", 0⟩, ⟨"email", 240000⟩, ⟨"email", 480000⟩] ⟨60, 3⟩ "email"
    (by decide) (by decide)

/-- C4: the per-service detection of a group with fewer than two records is
`none`: no alert and no failure. -/
theorem claim_C4 (hb : List ParsedHeartbeat) (cfg : Config) (h : hb.length ≤ 1) :
    analyseServiceHeartbeats hb cfg = none := by
  unfold analyseServiceHeartbeats
  rw [if_pos (by omega)]

theorem claim_C4_witness :
    analyseServiceHeartbeats [] ⟨60, 3⟩ = none ∧
      analyseServiceHeartbeats [⟨"email", 0⟩] ⟨60, 3⟩ = none :=
  ⟨claim_C4 [] ⟨60, 3⟩ (by decide), claim_C4 [⟨"email", 0⟩] ⟨60, 3⟩ (by decide)⟩

/-! ### Lemmas about grouping -/

theorem insertGrouped_mem_keys (acc : List (String × List ParsedHeartbeat))
    (h : ParsedHeartbeat) (s : String) :
    s ∈ (insertGrouped acc h).map Prod.fst ↔
      s ∈ acc.map Prod.fst ∨ h.service = s := by
  induction acc with
  | nil => simp [insertGrouped, eq_comm]
  | cons q rest ih =>
    obtain ⟨k, g⟩ := q
    simp only [insertGrouped]
    by_cases hk : k = h.service
    · rw [if_pos hk]
      subst hk
      simp only [List.map_cons, List.mem_cons]
      constructor
      · rintro (h1 | h1)
        · exact Or.inl (Or.inl h1)
        · exact Or.inl (Or.inr h1)
      · rintro ((h1 | h1) | h1)
        · exact Or.inl h1
        · exact Or.inr h1
        · exact Or.inl h1.symm
    · rw [if_neg hk]
      simp only [List.map_cons, List.mem_cons, ih]
      tauto

theorem insertGrouped_keys_nodup (acc : List (String × List ParsedHeartbeat))
    (h : ParsedHeartbeat) (hn : (acc.map Prod.fst).Nodup) :
    ((insertGrouped acc h).map Prod.fst).Nodup := by
  induction acc with
  | nil => simp [insertGrouped]
  | cons q rest ih =>
    obtain ⟨k, g⟩ := q
    simp only [List.map_cons, List.nodup_cons] at hn
    simp only [insertGrouped]
    by_cases hk : k = h.service
    · rw [if_pos hk]
      simp only [List.map_cons, List.nodup_cons]
      exact hn
    · rw [if_neg hk]
      simp only [List.map_cons, List.nodup_cons]
      refine ⟨?_, ih hn.2⟩
      rw [insertGrouped_mem_keys]
      rintro (h1 | h1)
      · exact hn.1 h1
      · exact hk h1.symm

theorem insertGrouped_lookup (acc : List (String × List ParsedHeartbeat))
    (h : ParsedHeartbeat) (s : String) :
    List.lookup s (insertGrouped acc h) =
      if s = h.service then some ((List.lookup s acc).getD [] ++ [h])
      else List.lookup s acc := by
  induction acc with
  | nil =>
    by_cases hs : s = h.service
    · subst hs
      simp [insertGrouped, List.lookup_cons]
    · have hb : (s == h.service) = false := beq_eq_false_iff_ne.mpr hs
      rw [if_neg hs]
      simp [insertGrouped, List.lookup_cons, hb]
  | cons q rest ih =>
    obtain ⟨k, g⟩ := q
    simp only [insertGrouped]
    by_cases hk : k = h.service
    · rw [if_pos hk]
      by_cases hs : s = k
      · subst hs
        rw [if_pos hk]
        simp [List.lookup_cons]
      · have hb : (s == k) = false := beq_eq_false_iff_ne.mpr hs
        rw [if_neg (fun hc => hs (hc.trans hk.symm))]
        simp only [List.lookup_cons, hb]
    · rw [if_neg hk]
      by_cases hs : s = k
      · subst hs
        rw [if_neg hk]
        simp [List.lookup_cons]
      · have hb : (s == k) = false := beq_eq_false_iff_ne.mpr hs
        simp only [List.lookup_cons, hb]
        exact ih

theorem insertGrouped_service (acc : List (String × List ParsedHeartbeat))
    (h : ParsedHeartbeat)
    (hacc : ∀ p ∈ acc, ∀ r ∈ p.2, r.service = p.1) :
    ∀ p ∈ insertGrouped acc h, ∀ r ∈ p.2, r.service = p.1 := by
  induction acc with
  | nil =>
    intro p hp r hr
    simp only [insertGrouped, List.mem_singleton] at hp
    subst hp
    simp only [List.mem_singleton] at hr
    subst hr
    rfl
  | cons q rest ih =>
    obtain ⟨k, g⟩ := q
    simp only [insertGrouped]
    by_cases hk : k = h.service
    · rw [if_pos hk]
      intro p hp r hr
      rcases List.mem_cons.mp hp with h1 | h1
      · subst h1
        rcases List.mem_append.mp hr with h2 | h2
        · exact hacc (k, g) (List.mem_cons_self _ _) r h2
        · simp only [List.mem_singleton] at h2
          subst h2
          exact hk.symm
      · exact hacc p (List.mem_cons_of_mem _ h1) r hr
    · rw [if_neg hk]
      intro p hp r hr
      rcases List.mem_cons.mp hp with h1 | h1
      · subst h1
        exact hacc (k, g) (List.mem_cons_self _ _) r hr
      · exact ih (fun p hp => hacc p (List.mem_cons_of_mem _ hp)) p h1 r hr

theorem insertGrouped_flatten (acc : List (String × List ParsedHeartbeat))
    (h : ParsedHeartbeat) :
    ((insertGrouped acc h).map Prod.snd).flatten.Perm
      ((acc.map Prod.snd).flatten ++ [h]) := by
  induction acc with
  | nil => simp [insertGrouped]
  | cons q rest ih =>
    obtain ⟨k, g⟩ := q
    simp only [insertGrouped]
    by_cases hk : k = h.service
    · rw [if_pos hk]
      simp only [List.map_cons, List.flatten_cons]
      rw [List.append_assoc, List.append_assoc]
      exact List.Perm.append_left g List.perm_append_comm
    · rw [if_neg hk]
      simp only [List.map_cons, List.flatten_cons]
      rw [List.append_assoc]
      exact List.Perm.append_left g ih

theorem foldl_insertGrouped_keys_nodup :
    ∀ (l : List ParsedHeartbeat) (acc : List (String × List ParsedHeartbeat)),
      (acc.map Prod.fst).Nodup → ((l.foldl insertGrouped acc).map Prod.fst).Nodup
  | [], acc, hn => hn
  | h :: t, acc, hn => by
    rw [List.foldl_cons]
    exact foldl_insertGrouped_keys_nodup t (insertGrouped acc h)
      (insertGrouped_keys_nodup acc h hn)

theorem foldl_insertGrouped_mem_keys :
    ∀ (l : List ParsedHeartbeat) (acc : List (String × List ParsedHeartbeat)) (s : String),
      s ∈ (l.foldl insertGrouped acc).map Prod.fst ↔
        s ∈ acc.map Prod.fst ∨ ∃ r ∈ l, r.service = s
  | [], acc, s => by simp
  | h :: t, acc, s => by
    rw [List.foldl_cons, foldl_insertGrouped_mem_keys t (insertGrouped acc h) s,
      insertGrouped_mem_keys]
    simp only [List.mem_cons]
    constructor
    · rintro ((h1 | h1) | ⟨r, hr, hrs⟩)
      · exact Or.inl h1
      · exact Or.inr ⟨h, Or.inl rfl, h1⟩
      · exact Or.inr ⟨r, Or.inr hr, hrs⟩
    · rintro (h1 | ⟨r, hr | hr, hrs⟩)
      · exact Or.inl (Or.inl h1)
      · subst hr
        exact Or.inl (Or.inr hrs)
      · exact Or.inr ⟨r, hr, hrs⟩

theorem foldl_insertGrouped_service :
    ∀ (l : List ParsedHeartbeat) (acc : List (String × List ParsedHeartbeat)),
      (∀ p ∈ acc, ∀ r ∈ p.2, r.service = p.1) →
      ∀ p ∈ l.foldl insertGrouped acc, ∀ r ∈ p.2, r.service = p.1
  | [], acc, hacc => hacc
  | h :: t, acc, hacc => by
    rw [List.foldl_cons]
    exact foldl_insertGrouped_service t (insertGrouped acc h)
      (insertGrouped_service acc h hacc)

theorem foldl_insertGrouped_flatten :
    ∀ (l : List ParsedHeartbeat) (acc : List (String × List ParsedHeartbeat)),
      ((l.foldl insertGrouped acc).map Prod.snd).flatten.Perm
        ((acc.map Prod.snd).flatten ++ l)
  | [], acc => by simp
  | h :: t, acc => by
    rw [List.foldl_cons]
    refine (foldl_insertGrouped_flatten t (insertGrouped acc h)).trans ?_
    refine (List.Perm.append_right t (insertGrouped_flatten acc h)).trans ?_
    rw [List.append_assoc]
    rfl

theorem foldl_insertGrouped_lookup :
    ∀ (l : List ParsedHeartbeat) (acc : List (String × List ParsedHeartbeat)) (s : String),
      (List.lookup s (l.foldl insertGrouped acc)).getD [] =
        (List.lookup s acc).getD [] ++ l.filter (fun r => r.service == s)
  | [], acc, s => by simp
  | h :: t, acc, s => by
    rw [List.foldl_cons, foldl_insertGrouped_lookup t (insertGrouped acc h) s,
      insertGrouped_lookup]
    by_cases hs : s = h.service
    · rw [if_pos hs]
      have hpred : (h.service == s) = true := by simp [hs]
      simp only [List.filter_cons, hpred, Option.getD_some]
      rw [List.append_assoc]
      rfl
    · rw [if_neg hs]
      have hpred : (h.service == s) = false := by
        simp only [beq_eq_false_iff_ne, ne_eq]
        exact fun hc => hs hc.symm
      simp [List.filter_cons, hpred]

theorem lookup_eq_of_mem_of_nodup :
    ∀ (G : List (String × List ParsedHeartbeat)) (p : String × List ParsedHeartbeat),
      (G.map Prod.fst).Nodup → p ∈ G → List.lookup p.1 G = some p.2
  | [], p, _, hp => by simp at hp
  | q :: rest, p, hn, hp => by
    obtain ⟨k, g⟩ := q
    simp only [List.map_cons, List.nodup_cons] at hn
    rcases List.mem_cons.mp hp with h1 | h1
    · subst h1
      simp [List.lookup_cons]
    · have hne : p.1 ≠ k := by
        intro hc
        exact hn.1 (hc ▸ List.mem_map_of_mem Prod.fst h1)
      have hb : (p.1 == k) = false := beq_eq_false_iff_ne.mpr hne
      simp only [List.lookup_cons, hb]
      exact lookup_eq_of_mem_of_nodup rest p hn.2 h1

/-- Every group of `groupHeartbeatsByService` holds exactly the input records
whose service equals the group key. -/
theorem group_content (l : List ParsedHeartbeat)
    (p : String × List ParsedHeartbeat) (hp : p ∈ groupHeartbeatsByService l) :
    p.2 = l.filter (fun r => r.service == p.1) := by
  have hn : ((groupHeartbeatsByService l).map Prod.fst).Nodup :=
    foldl_insertGrouped_keys_nodup l [] (by simp)
  have hl := lookup_eq_of_mem_of_nodup _ p hn hp
  have hgd := foldl_insertGrouped_lookup l [] p.1
  rw [show List.foldl insertGrouped [] l = groupHeartbeatsByService l from rfl, hl] at hgd
  simpa using hgd

/-! ### Claims C6, C7 and C10 -/

theorem filterMap_service_sublist
    (f : List ParsedHeartbeat → Option Alert) :
    ∀ G : List (String × List ParsedHeartbeat),
      (∀ p ∈ G, ∀ a, f p.2 = some a → a.service = p.1) →
      ((G.filterMap (fun p => f p.2)).map Alert.service).Sublist (G.map Prod.fst)
  | [], _ => by simp
  | p :: rest, hG => by
    have ih := filterMap_service_sublist f rest
      (fun q hq => hG q (List.mem_cons_of_mem _ hq))
    simp only [List.filterMap_cons, List.map_cons]
    cases hfp : f p.2 with
    | none => exact ih.cons p.1
    | some a =>
      simp only [List.map_cons]
      rw [hG p (List.mem_cons_self _ _) a hfp]
      exact ih.cons₂ p.1

/-- C6: the batch analysis emits at most one alert per service: the list of
alert services contains no duplicate. -/
theorem claim_C6 (l : List ParsedHeartbeat) (cfg : Config) :
    ((analyseAllHeartbeats l cfg).map Alert.service).Nodup := by
  have hn : ((groupHeartbeatsByService l).map Prod.fst).Nodup :=
    foldl_insertGrouped_keys_nodup l [] (by simp)
  have hsub := filterMap_service_sublist
    (fun g => analyseServiceHeartbeats g cfg) (groupHeartbeatsByService l) ?_
  · exact hn.sublist hsub
  · intro p hp a ha
    rcases analyse_some_grounded p.2 cfg a ha with ⟨r, hr, hsvc, _⟩
    rw [hsvc]
    exact foldl_insertGrouped_service l [] (by simp) p hp r hr

/-- C7: grouping partitions the records by exact service string: the groups
joined together are a permutation of the input (no record dropped or
duplicated), every record sits in the group keyed by its own service text,
group keys are pairwise distinct, and two records land in the same group
exactly when their service texts are equal. -/
theorem claim_C7 (l : List ParsedHeartbeat) :
    ((groupHeartbeatsByService l).map Prod.snd).flatten.Perm l ∧
    (∀ p ∈ groupHeartbeatsByService l, ∀ r ∈ p.2, r.service = p.1) ∧
    ((groupHeartbeatsByService l).map Prod.fst).Nodup ∧
    (∀ p ∈ groupHeartbeatsByService l, ∀ q ∈ groupHeartbeatsByService l,
      ∀ r1 ∈ p.2, ∀ r2 ∈ q.2, (r1.service = r2.service ↔ p = q)) := by
  have hsvc := foldl_insertGrouped_service l [] (by simp)
  have hn : ((groupHeartbeatsByService l).map Prod.fst).Nodup :=
    foldl_insertGrouped_keys_nodup l [] (by simp)
  refine ⟨?_, hsvc, hn, ?_⟩
  · have := foldl_insertGrouped_flatten l []
    simpa using this
  · intro p hp q hq r1 hr1 r2 hr2
    constructor
    · intro h12
      have h1 := hsvc p hp r1 hr1
      have h2 := hsvc q hq r2 hr2
      have hfst : p.1 = q.1 := by rw [← h1, ← h2, h12]
      exact List.inj_on_of_nodup_map hn hp hq hfst
    · intro hpq
      subst hpq
      rw [hsvc p hp r1 hr1, hsvc p hp r2 hr2]

/-- C10: every alert of the batch analysis is grounded in the input: its
service is the service of some input record, and its instant is the timestamp
of such a record of that same service plus one expected interval, rendered by
the ISO-8601 UTC millisecond formatter. -/
theorem claim_C10 (l : List ParsedHeartbeat) (cfg : Config) (a : Alert)
    (h : a ∈ analyseAllHeartbeats l cfg) :
    ∃ r ∈ l, a.service = r.service ∧
      a.alert_at = toISOString (r.timestamp + cfg.expected_interval_seconds * 1000) := by
  unfold analyseAllHeartbeats at h
  rcases List.mem_filterMap.mp h with ⟨p, hpG, hpa⟩
  rcases analyse_some_grounded p.2 cfg a hpa with ⟨r, hr, hsvc, hat⟩
  have hc := group_content l p hpG
  have hrl : r ∈ l := by
    rw [hc] at hr
    exact (List.mem_filter.mp hr).1
  exact ⟨r, hrl, hsvc, hat⟩

unseal List.merge List.mergeSort in
theorem claim_C10_witness :
    ∃ r ∈ ([⟨"email", 0⟩, ⟨"email", 600000⟩] : List ParsedHeartbeat),
      (⟨"email", toISOString 60000⟩ : Alert).service = r.service ∧
      (⟨"email", toISOString 60000⟩ : Alert).alert_at =
        toISOString (r.timestamp + (60 : Int) * 1000) :=
  claim_C10 [⟨"email", 0⟩, ⟨"email", 600000⟩] ⟨60, 3⟩ ⟨"email", toISOString 60000⟩
    (by decide)

/-! ### Order-independence of the analysis (claim C5) -/

theorem hbLE_trans (a b c : ParsedHeartbeat) :
    hbLE a b = true → hbLE b c = true → hbLE a c = true := by
  simp only [hbLE, decide_eq_true_eq]
  omega

theorem hbLE_total (a b : ParsedHeartbeat) : (hbLE a b || hbLE b a) = true := by
  simp only [hbLE, Bool.or_eq_true, decide_eq_true_eq]
  omega

/-- Within a single-service group, sorting by timestamp is insensitive to the
input order: any two permutations of the group have the same sorted list
(ties can only occur between equal records). -/
theorem mergeSort_eq_of_perm (c : String) (hb hb' : List ParsedHeartbeat)
    (hperm : hb.Perm hb') (hsvc : ∀ r ∈ hb, r.service = c) :
    hb.mergeSort hbLE = hb'.mergeSort hbLE := by
  have hsvc' : ∀ r ∈ hb', r.service = c := fun r hr => hsvc r (hperm.mem_iff.mpr hr)
  have hP : (hb.mergeSort hbLE).Pairwise (fun a b => hbLE a b = true) :=
    List.sorted_mergeSort hbLE_trans hbLE_total hb
  have hP' : (hb'.mergeSort hbLE).Pairwise (fun a b => hbLE a b = true) :=
    List.sorted_mergeSort hbLE_trans hbLE_total hb'
  have hs1 : ((hb.mergeSort hbLE).map ParsedHeartbeat.timestamp).Sorted (· ≤ ·) :=
    List.pairwise_map.mpr (hP.imp (fun h => by simpa [hbLE] using h))
  have hs2 : ((hb'.mergeSort hbLE).map ParsedHeartbeat.timestamp).Sorted (· ≤ ·) :=
    List.pairwise_map.mpr (hP'.imp (fun h => by simpa [hbLE] using h))
  have hpm : (hb.mergeSort hbLE).Perm (hb'.mergeSort hbLE) :=
    (List.mergeSort_perm hb hbLE).trans (hperm.trans (List.mergeSort_perm hb' hbLE).symm)
  have hmaps : (hb.mergeSort hbLE).map ParsedHeartbeat.timestamp =
      (hb'.mergeSort hbLE).map ParsedHeartbeat.timestamp :=
    List.eq_of_perm_of_sorted (hpm.map ParsedHeartbeat.timestamp) hs1 hs2
  have hrec : ∀ (l : List ParsedHeartbeat), (∀ r ∈ l, r.service = c) →
      l = (l.map ParsedHeartbeat.timestamp).map (fun t => ⟨c, t⟩) := by
    intro l hl
    rw [List.map_map]
    conv_lhs => rw [← List.map_id l]
    apply List.map_congr_left
    intro r hr
    have hc := hl r hr
    obtain ⟨rs, rt⟩ := r
    show (⟨rs, rt⟩ : ParsedHeartbeat) = ⟨c, rt⟩
    rw [show rs = c from hc]
  rw [hrec (hb.mergeSort hbLE) (fun r hr => hsvc r (List.mem_mergeSort.mp hr)),
    hrec (hb'.mergeSort hbLE) (fun r hr => hsvc' r (List.mem_mergeSort.mp hr)), hmaps]

/-- The per-service analysis only depends on the multiset of records of the
group. -/
theorem analyseService_perm (c : String) (hb hb' : List ParsedHeartbeat)
    (cfg : Config) (hperm : hb.Perm hb') (hsvc : ∀ r ∈ hb, r.service = c) :
    analyseServiceHeartbeats hb cfg = analyseServiceHeartbeats hb' cfg := by
  rw [analyseServiceHeartbeats_eq_first, analyseServiceHeartbeats_eq_first,
    mergeSort_eq_of_perm c hb hb' hperm hsvc]

theorem mem_keys_group (l : List ParsedHeartbeat) (s : String) :
    s ∈ (groupHeartbeatsByService l).map Prod.fst ↔ ∃ r ∈ l, r.service = s := by
  have := foldl_insertGrouped_mem_keys l [] s
  simpa [groupHeartbeatsByService] using this

/-- The batch analysis is the scan of the per-service analysis over the group
keys, each key analysing the records filtered from the input by service. -/
theorem analyseAll_eq_keys (l : List ParsedHeartbeat) (cfg : Config) :
    analyseAllHeartbeats l cfg =
      ((groupHeartbeatsByService l).map Prod.fst).filterMap
        (fun s => analyseServiceHeartbeats (l.filter (fun r => r.service == s)) cfg) := by
  unfold analyseAllHeartbeats
  rw [List.filterMap_map]
  apply List.filterMap_congr
  intro p hp
  rw [group_content l p hp]
  rfl

/-- C5: the batch analysis is order-independent: permuting the input records
permutes the alert list at most, so the alert set is unchanged. -/
theorem claim_C5 (l l' : List ParsedHeartbeat) (cfg : Config) (hperm : l.Perm l') :
    (analyseAllHeartbeats l cfg).Perm (analyseAllHeartbeats l' cfg) := by
  rw [analyseAll_eq_keys, analyseAll_eq_keys]
  have hK : ((groupHeartbeatsByService l).map Prod.fst).Nodup :=
    foldl_insertGrouped_keys_nodup l [] (by simp)
  have hK' : ((groupHeartbeatsByService l').map Prod.fst).Nodup :=
    foldl_insertGrouped_keys_nodup l' [] (by simp)
  have hmem : ∀ s, s ∈ (groupHeartbeatsByService l).map Prod.fst ↔
      s ∈ (groupHeartbeatsByService l').map Prod.fst := by
    intro s
    rw [mem_keys_group, mem_keys_group]
    constructor
    · rintro ⟨r, hr, hrs⟩
      exact ⟨r, hperm.mem_iff.mp hr, hrs⟩
    · rintro ⟨r, hr, hrs⟩
      exact ⟨r, hperm.mem_iff.mpr hr, hrs⟩
  have hKperm : ((groupHeartbeatsByService l).map Prod.fst).Perm
      ((groupHeartbeatsByService l').map Prod.fst) :=
    (List.perm_ext_iff_of_nodup hK hK').mpr hmem
  have hfun : ∀ s, analyseServiceHeartbeats (l.filter (fun r => r.service == s)) cfg =
      analyseServiceHeartbeats (l'.filter (fun r => r.service == s)) cfg := by
    intro s
    apply analyseService_perm s
    · exact hperm.filter _
    · intro r hr
      simpa using (List.mem_filter.mp hr).2
  refine (hKperm.filterMap _).trans ?_
  rw [List.filterMap_congr (fun s _ => (hfun s).symm)]

theorem claim_C5_witness :
    (analyseAllHeartbeats [⟨"a", 0⟩, ⟨"a", 240000⟩, ⟨"b", 0⟩] ⟨60, 3⟩).Perm
      (analyseAllHeartbeats [⟨"b", 0⟩, ⟨"a", 240000⟩, ⟨"a", 0⟩] ⟨60, 3⟩) :=
  claim_C5 [⟨"a", 0⟩, ⟨"a", 240000⟩, ⟨"b", 0⟩] [⟨"b", 0⟩, ⟨"a", 240000⟩, ⟨"a", 0⟩]
    ⟨60, 3⟩ (by decide)

/-! ### Lemmas about the validator (claims C8 and C9) -/

theorem validate_length_add (pd : String → Option Int) :
    ∀ events : List JSVal,
      (validateAndParseEvents pd events).valid.length +
        (validateAndParseEvents pd events).invalid = events.length
  | [] => rfl
  | e :: rest => by
    have ih := validate_length_add pd rest
    cases hp : parseEvent pd e with
    | some p =>
      simp only [validateAndParseEvents, hp, List.length_cons]
      omega
    | none =>
      simp only [validateAndParseEvents, hp, List.length_cons]
      omega

theorem validate_invalid_countP (pd : String → Option Int) :
    ∀ events : List JSVal,
      (validateAndParseEvents pd events).invalid =
        events.countP (fun e => (parseEvent pd e).isNone)
  | [] => rfl
  | e :: rest => by
    have ih := validate_invalid_countP pd rest
    cases hp : parseEvent pd e with
    | some p =>
      simp [validateAndParseEvents, hp, List.countP_cons, ih]
    | none =>
      simp [validateAndParseEvents, hp, List.countP_cons, ih]

theorem validate_valid_mem (pd : String → Option Int) :
    ∀ events : List JSVal, ∀ r ∈ (validateAndParseEvents pd events).valid,
      ∃ e ∈ events, parseEvent pd e = some r
  | [], r, hr => by simp [validateAndParseEvents] at hr
  | e :: rest, r, hr => by
    revert hr
    cases hp : parseEvent pd e with
    | some p =>
      simp only [validateAndParseEvents, hp]
      intro hr
      rcases List.mem_cons.mp hr with h1 | h1
      · subst h1
        exact ⟨e, List.mem_cons_self _ _, hp⟩
      · rcases validate_valid_mem pd rest r h1 with ⟨e2, he2, hpe2⟩
        exact ⟨e2, List.mem_cons_of_mem _ he2, hpe2⟩
    | none =>
      simp only [validateAndParseEvents, hp]
      intro hr
      rcases validate_valid_mem pd rest r hr with ⟨e2, he2, hpe2⟩
      exact ⟨e2, List.mem_cons_of_mem _ he2, hpe2⟩

theorem string_of_length_zero {s : String} (h : s.length = 0) : s = "" := by
  cases s with
  | mk data =>
    cases data with
    | nil => rfl
    | cons c cs => simp [String.length] at h

theorem parseEvent_some_shape (pd : String → Option Int) (e : JSVal)
    (r : ParsedHeartbeat) (h : parseEvent pd e = some r) :
    r.service ≠ "" ∧ (∃ s : String, r.service = s.trim) ∧ (∃ ts, pd ts = some r.timestamp) := by
  unfold parseEvent at h
  cases hreq : hasRequiredFields e with
  | false => simp [hreq] at h
  | true =>
    cases hgs : getField e "service" with
    | vundefined => simp [hreq, hgs, isValidService] at h
    | vnull => simp [hreq, hgs, isValidService] at h
    | vbool b => simp [hreq, hgs, isValidService] at h
    | vnum n => simp [hreq, hgs, isValidService] at h
    | vobj fs => simp [hreq, hgs, isValidService] at h
    | vstr s =>
      cases hgt : getField e "timestamp" with
      | vundefined => simp [hreq, hgs, hgt, parseTimestamp] at h
      | vnull => simp [hreq, hgs, hgt, parseTimestamp] at h
      | vbool b => simp [hreq, hgs, hgt, parseTimestamp] at h
      | vnum n => simp [hreq, hgs, hgt, parseTimestamp] at h
      | vobj fs => simp [hreq, hgs, hgt, parseTimestamp] at h
      | vstr ts =>
        cases hpd : pd ts with
        | none => simp [hreq, hgs, hgt, parseTimestamp, hpd] at h
        | some t =>
          by_cases hemp : 0 < s.trim.length
          · simp [hreq, hgs, hgt, parseTimestamp, hpd, isValidService, hemp] at h
            obtain rfl : r = ⟨s.trim, t⟩ := h.symm
            refine ⟨?_, ⟨s, rfl⟩, ⟨ts, hpd⟩⟩
            intro hc
            simp [show s.trim = "" from hc] at hemp
          · simp [hreq, hgs, hgt, parseTimestamp, hpd, isValidService, hemp] at h

theorem parseEvent_eq_none_iff (pd : String → Option Int) (e : JSVal) :
    parseEvent pd e = none ↔ invalidEventSpec pd e := by
  cases e with
  | vundefined =>
    exact ⟨fun _ => Or.inl rfl, fun _ => rfl⟩
  | vnull =>
    exact ⟨fun _ => Or.inl rfl, fun _ => rfl⟩
  | vbool b =>
    exact ⟨fun _ => Or.inl rfl, fun _ => rfl⟩
  | vnum n =>
    exact ⟨fun _ => Or.inl rfl, fun _ => rfl⟩
  | vstr s =>
    exact ⟨fun _ => Or.inl rfl, fun _ => rfl⟩
  | vobj fields =>
    cases hsv : fields.lookup "service" with
    | none =>
      have hpe : parseEvent pd (JSVal.vobj fields) = none := by
        simp [parseEvent, hasRequiredFields, hsv]
      have hfo : fieldOf (JSVal.vobj fields) "service" = none := by
        simp [fieldOf, hsv]
      exact ⟨fun _ => Or.inl hfo, fun _ => hpe⟩
    | some vs =>
      cases hts : fields.lookup "timestamp" with
      | none =>
        have hpe : parseEvent pd (JSVal.vobj fields) = none := by
          simp [parseEvent, hasRequiredFields, hsv, hts]
        have hfo : fieldOf (JSVal.vobj fields) "timestamp" = none := by
          simp [fieldOf, hts]
        exact ⟨fun _ => Or.inr (Or.inl hfo), fun _ => hpe⟩
      | some vt =>
        have hreq : hasRequiredFields (JSVal.vobj fields) = true := by
          simp [hasRequiredFields, hsv, hts]
        have hgs : getField (JSVal.vobj fields) "service" = vs := by
          simp [getField, fieldOf, hsv]
        have hgt : getField (JSVal.vobj fields) "timestamp" = vt := by
          simp [getField, fieldOf, hts]
        cases vs with
        | vstr s =>
          by_cases hemp : s.trim = ""
          · have hval : isValidService (JSVal.vstr s) = false := by
              simp [isValidService, hemp]
            have hpe : parseEvent pd (JSVal.vobj fields) = none := by
              simp [parseEvent, hreq, hgs, hval]
            exact ⟨fun _ => Or.inr (Or.inr (Or.inr (Or.inl ⟨s, hgs, hemp⟩))),
              fun _ => hpe⟩
          · have hlen : 0 < s.trim.length := by
              rcases Nat.eq_zero_or_pos s.trim.length with h0 | h0
              · exact absurd (string_of_length_zero h0) hemp
              · exact h0
            have hval : isValidService (JSVal.vstr s) = true := by
              simp only [isValidService]
              exact decide_eq_true hlen
            cases vt with
            | vstr ts =>
              cases hpd : pd ts with
              | none =>
                have hpe : parseEvent pd (JSVal.vobj fields) = none := by
                  simp [parseEvent, hreq, hgs, hgt, hval, parseTimestamp, hpd]
                exact ⟨fun _ => Or.inr (Or.inr (Or.inr (Or.inr (Or.inr ⟨ts, hgt, hpd⟩)))),
                  fun _ => hpe⟩
              | some t =>
                have hpe : parseEvent pd (JSVal.vobj fields) = some ⟨s.trim, t⟩ := by
                  simp [parseEvent, hreq, hgs, hgt, hval, parseTimestamp, hpd]
                constructor
                · intro hc
                  rw [hpe] at hc
                  exact Option.noConfusion hc
                · rintro (hc | hc | hc | ⟨s2, hs2, he2⟩ | hc | ⟨s2, hs2, he2⟩)
                  · simp [fieldOf, hsv] at hc
                  · simp [fieldOf, hts] at hc
                  · exact absurd hgs (hc s)
                  · rw [hgs] at hs2
                    cases hs2
                    exact absurd he2 hemp
                  · exact absurd hgt (hc ts)
                  · rw [hgt] at hs2
                    cases hs2
                    rw [hpd] at he2
                    exact Option.noConfusion he2
            | vundefined =>
              have hpe : parseEvent pd (JSVal.vobj fields) = none := by
                simp [parseEvent, hreq, hgs, hgt, hval, parseTimestamp]
              refine ⟨fun _ => Or.inr (Or.inr (Or.inr (Or.inr (Or.inl ?_)))), fun _ => hpe⟩
              intro s2 hc
              rw [hgt] at hc
              exact JSVal.noConfusion hc
            | vnull =>
              have hpe : parseEvent pd (JSVal.vobj fields) = none := by
                simp [parseEvent, hreq, hgs, hgt, hval, parseTimestamp]
              refine ⟨fun _ => Or.inr (Or.inr (Or.inr (Or.inr (Or.inl ?_)))), fun _ => hpe⟩
              intro s2 hc
              rw [hgt] at hc
              exact JSVal.noConfusion hc
            | vbool b =>
              have hpe : parseEvent pd (JSVal.vobj fields) = none := by
                simp [parseEvent, hreq, hgs, hgt, hval, parseTimestamp]
              refine ⟨fun _ => Or.inr (Or.inr (Or.inr (Or.inr (Or.inl ?_)))), fun _ => hpe⟩
              intro s2 hc
              rw [hgt] at hc
              exact JSVal.noConfusion hc
            | vnum n =>
              have hpe : parseEvent pd (JSVal.vobj fields) = none := by
                simp [parseEvent, hreq, hgs, hgt, hval, parseTimestamp]
              refine ⟨fun _ => Or.inr (Or.inr (Or.inr (Or.inr (Or.inl ?_)))), fun _ => hpe⟩
              intro s2 hc
              rw [hgt] at hc
              exact JSVal.noConfusion hc
            | vobj fs2 =>
              have hpe : parseEvent pd (JSVal.vobj fields) = none := by
                simp [parseEvent, hreq, hgs, hgt, hval, parseTimestamp]
              refine ⟨fun _ => Or.inr (Or.inr (Or.inr (Or.inr (Or.inl ?_)))), fun _ => hpe⟩
              intro s2 hc
              rw [hgt] at hc
              exact JSVal.noConfusion hc
        | vundefined =>
          have hval : isValidService JSVal.vundefined = false := rfl
          have hpe : parseEvent pd (JSVal.vobj fields) = none := by
            simp [parseEvent, hreq, hgs, hval]
          refine ⟨fun _ => Or.inr (Or.inr (Or.inl ?_)), fun _ => hpe⟩
          intro s2 hc
          rw [hgs] at hc
          exact JSVal.noConfusion hc
        | vnull =>
          have hval : isValidService JSVal.vnull = false := rfl
          have hpe : parseEvent pd (JSVal.vobj fields) = none := by
            simp [parseEvent, hreq, hgs, hval]
          refine ⟨fun _ => Or.inr (Or.inr (Or.inl ?_)), fun _ => hpe⟩
          intro s2 hc
          rw [hgs] at hc
          exact JSVal.noConfusion hc
        | vbool b =>
          have hval : isValidService (JSVal.vbool b) = false := rfl
          have hpe : parseEvent pd (JSVal.vobj fields) = none := by
            simp [parseEvent, hreq, hgs, hval]
          refine ⟨fun _ => Or.inr (Or.inr (Or.inl ?_)), fun _ => hpe⟩
          intro s2 hc
          rw [hgs] at hc
          exact JSVal.noConfusion hc
        | vnum n =>
          have hval : isValidService (JSVal.vnum n) = false := rfl
          have hpe : parseEvent pd (JSVal.vobj fields) = none := by
            simp [parseEvent, hreq, hgs, hval]
          refine ⟨fun _ => Or.inr (Or.inr (Or.inl ?_)), fun _ => hpe⟩
          intro s2 hc
          rw [hgs] at hc
          exact JSVal.noConfusion hc
        | vobj fs2 =>
          have hval : isValidService (JSVal.vobj fs2) = false := rfl
          have hpe : parseEvent pd (JSVal.vobj fields) = none := by
            simp [parseEvent, hreq, hgs, hval]
          refine ⟨fun _ => Or.inr (Or.inr (Or.inl ?_)), fun _ => hpe⟩
          intro s2 hc
          rw [hgs] at hc
          exact JSVal.noConfusion hc

/-- C8: validation partitions the raw events: the valid records plus the
invalid count cover the whole input (a bad event never halts the run), an
event is counted invalid exactly when it misses a required field, has a
non-text or trim-empty service, or a non-text or unparseable timestamp, and
every surviving record carries a non-empty trimmed service and a timestamp
obtained from a parseable text value. -/
theorem claim_C8 (pd : String → Option Int) (events : List JSVal) :
    (validateAndParseEvents pd events).valid.length +
        (validateAndParseEvents pd events).invalid = events.length ∧
    (validateAndParseEvents pd events).invalid =
        events.countP (fun e => (parseEvent pd e).isNone) ∧
    (∀ e, parseEvent pd e = none ↔ invalidEventSpec pd e) ∧
    (∀ r ∈ (validateAndParseEvents pd events).valid,
      r.service ≠ "" ∧ (∃ s : String, r.service = s.trim) ∧ (∃ ts, pd ts = some r.timestamp)) := by
  refine ⟨validate_length_add pd events, validate_invalid_countP pd events,
    parseEvent_eq_none_iff pd, ?_⟩
  intro r hr
  rcases validate_valid_mem pd events r hr with ⟨e, _, hpe⟩
  exact parseEvent_some_shape pd e r hpe

/-- C9: the pipeline is deterministic: two runs on equal event lists with
equal configurations return equal alert lists; the embedding is a total pure
function, so the computation performs no effect and yields a result on every
well-formed input. -/
theorem claim_C9 (pd : String → Option Int) (events1 events2 : List JSVal)
    (cfg1 cfg2 : Config) (he : events1 = events2) (hc : cfg1 = cfg2) :
    detectMissedHeartbeats pd events1 cfg1 = detectMissedHeartbeats pd events2 cfg2 := by
  rw [he, hc]

theorem claim_C9_witness :
    detectMissedHeartbeats (fun _ => some 0)
        [JSVal.vobj [("service", JSVal.vstr "email"), ("timestamp", JSVal.vstr "x")]] ⟨60, 3⟩ =
      detectMissedHeartbeats (fun _ => some 0)
        [JSVal.vobj [("service", JSVal.vstr "email"), ("timestamp", JSVal.vstr "x")]] ⟨60, 3⟩ :=
  claim_C9 (fun _ => some 0)
    [JSVal.vobj [("service", JSVal.vstr "email"), ("timestamp", JSVal.vstr "x")]]
    [JSVal.vobj [("service", JSVal.vstr "email"), ("timestamp", JSVal.vstr "x")]]
    ⟨60, 3⟩ ⟨60, 3⟩ rfl rfl

end HeartbeatMonitor
